import Mathlib

/-!
# Ringbuffer: a fixed-capacity single-producer/single-consumer queue

Embedding of `src/src/Ringbuffer.hpp`.  The class is modelled sequentially:
an atomic load is a read of the field and an atomic store is a write of it.
`std::size_t` is a 64-bit word, modelled by `Nat` with explicit reduction
modulo `2 ^ 64` at every addition and subtraction of the source.
A result of `none` stands for a fault: a failed `assert` in the constructor,
or an access `buffer[i]` outside the bounds of the vector.
-/

/-- Number of values of a `std::size_t` (64-bit word). -/
def SIZE_MOD : Nat := 2 ^ 64

/-- Addition of two `std::size_t` words. -/
def wadd (a b : Nat) : Nat := (a + b) % SIZE_MOD

/-- Subtraction of two `std::size_t` words (wraps below zero). -/
def wsub (a b : Nat) : Nat := (a + SIZE_MOD - b) % SIZE_MOD

/-- The error kinds, `enum class Error { Full, Empty }`. -/
inductive Error where
  | Full
  | Empty
  deriving DecidableEq

/-- The private members of `class Ringbuffer<T>`: the vector `buffer`, the
words `cap` and `mask`, and the two indices `head` (consumer) and `tail`
(producer). -/
structure Ringbuffer (T : Type) where
  buffer : List T
  cap : Nat
  mask : Nat
  head : Nat
  tail : Nat
  deriving DecidableEq

namespace Ringbuffer

variable {T : Type}

/-- The constructor `Ringbuffer(std::size_t capacity_pow2)`.  The `assert`
evaluates `capacity_pow2 && (capacity_pow2 & (capacity_pow2 - 1)) == 0`
(the right operand only when the left one is non-zero); when it fails the
construction faults.  `buffer.resize(cap)` fills the vector with `cap`
value-initialised elements. -/
def new [Inhabited T] (capacity_pow2 : Nat) : Option (Ringbuffer T) :=
  if capacity_pow2 ≠ 0 ∧ capacity_pow2 &&& wsub capacity_pow2 1 = 0 then
    let cap := capacity_pow2
    let mask := wsub cap 1
    some { buffer := List.replicate cap default, cap := cap, mask := mask,
           head := 0, tail := 0 }
  else
    none

/-- The method `push(const T& value)`: returns the result of the call and the
state after it. -/
def push (q : Ringbuffer T) (value : T) :
    Option (Except Error Unit × Ringbuffer T) :=
  let t := q.tail
  let next_t := wadd t 1 &&& q.mask
  if next_t = q.head then
    some (.error .Full, q)
  else if t < q.buffer.length then
    some (.ok (), { q with buffer := q.buffer.set t value, tail := next_t })
  else
    none

/-- The method `push(T&& value)`.  The third component is the object of the
caller after the call: `buffer[t] = std::move(value)` leaves it in the moved-from
state `moved value`; on the `Full` path it is not touched. -/
def push_move (moved : T → T) (q : Ringbuffer T) (value : T) :
    Option (Except Error Unit × Ringbuffer T × T) :=
  let t := q.tail
  let next_t := wadd t 1 &&& q.mask
  if next_t = q.head then
    some (.error .Full, q, value)
  else if t < q.buffer.length then
    some (.ok (), { q with buffer := q.buffer.set t value, tail := next_t },
          moved value)
  else
    none

/-- The method `pop()`.  `T value = std::move(buffer[h])` move-constructs the
result from the slot, which keeps the moved-from state `moved old` (the
identity for `int`). -/
def pop (moved : T → T) (q : Ringbuffer T) :
    Option (Except Error T × Ringbuffer T) :=
  let h := q.head
  if h = q.tail then
    some (.error .Empty, q)
  else if hb : h < q.buffer.length then
    let value := q.buffer[h]
    some (.ok value, { q with buffer := q.buffer.set h (moved value),
                              head := wadd h 1 &&& q.mask })
  else
    none

/-- The method `empty() const noexcept`: a read of the two indices. -/
def empty (q : Ringbuffer T) : Bool :=
  decide (q.head = q.tail)

/-- The method `capacity() const noexcept`: `cap - 1` on words. -/
def capacity (q : Ringbuffer T) : Nat :=
  wsub q.cap 1

end Ringbuffer

/-- One call on the buffer: `push(value)` or `pop()`. -/
inductive Op (T : Type) where
  | push (value : T)
  | pop
  deriving DecidableEq

/-- What a call returned: the `std::expected` of a `push` or of a `pop`. -/
inductive Ret (T : Type) where
  | push (r : Except Error Unit)
  | pop (r : Except Error T)

namespace Ringbuffer

variable {T : Type}

/-- Perform one call. -/
def step (moved : T → T) (q : Ringbuffer T) : Op T → Option (Ret T × Ringbuffer T)
  | .push v =>
    match q.push v with
    | none => none
    | some (r, q1) => some (.push r, q1)
  | .pop =>
    match q.pop moved with
    | none => none
    | some (r, q1) => some (.pop r, q1)

/-- Perform a sequence of calls one after another, collecting what each
returned. -/
def run (moved : T → T) (q : Ringbuffer T) : List (Op T) → Option (List (Ret T) × Ringbuffer T)
  | [] => some ([], q)
  | op :: ops =>
    match step moved q op with
    | none => none
    | some (r, q1) =>
      match run moved q1 ops with
      | none => none
      | some (rs, q2) => some (r :: rs, q2)

end Ringbuffer

deriving instance DecidableEq for Except
deriving instance DecidableEq for Ret

/-! ## The reference queue of the specification -/

/-- One call on the reference bounded FIFO queue: a list holding at most
`C - 1` values.  `push` appends at the back, or returns `Full` when the list
already has `C - 1` values; `pop` removes and returns the front, or returns
`Empty` when the list is empty. -/
def refStep {T : Type} (C : Nat) (l : List T) : Op T → Ret T × List T
  | .push v =>
    if l.length = C - 1 then (.push (.error .Full), l)
    else (.push (.ok ()), l ++ [v])
  | .pop =>
    match l with
    | [] => (.pop (.error .Empty), [])
    | x :: xs => (.pop (.ok x), xs)

/-- A sequence of calls on the reference queue. -/
def refRun {T : Type} (C : Nat) (l : List T) : List (Op T) → List (Ret T) × List T
  | [] => ([], l)
  | op :: ops =>
    ((refStep C l op).1 :: (refRun C (refStep C l op).2 ops).1,
     (refRun C (refStep C l op).2 ops).2)

/-- Number of successful pushes among the results of a run. -/
def pushes_ok {T : Type} : List (Ret T) → Nat
  | [] => 0
  | .push (.ok _) :: rs => pushes_ok rs + 1
  | _ :: rs => pushes_ok rs

/-- Number of successful pops among the results of a run. -/
def pops_ok {T : Type} : List (Ret T) → Nat
  | [] => 0
  | .pop (.ok _) :: rs => pops_ok rs + 1
  | _ :: rs => pops_ok rs

namespace Ringbuffer

variable {T : Type}

/-- Distance from `head` to `tail`, going forward around the ring. -/
def count (q : Ringbuffer T) : Nat :=
  (q.tail + q.cap - q.head) % q.cap

/-- The slots from `head` up to `tail` (excluded), going forward around the
ring: the values pushed and not yet popped, oldest first. -/
def live [Inhabited T] (q : Ringbuffer T) : List T :=
  (List.range q.count).map (fun i => q.buffer.getD ((q.head + i) % q.cap) default)

/-- Shape of a buffer built for capacity `C`: the constants are those of the
constructor, the vector has `C` slots and both indices are below `C`. -/
structure WF (C : Nat) (q : Ringbuffer T) : Prop where
  cap_eq : q.cap = C
  mask_eq : q.mask = C - 1
  len_eq : q.buffer.length = C
  head_lt : q.head < C
  tail_lt : q.tail < C

end Ringbuffer

/-! ## Word arithmetic -/

theorem two_pow_lt_size {k : Nat} (hk : k < 64) : 2 ^ k < SIZE_MOD := by
  unfold SIZE_MOD
  exact Nat.pow_lt_pow_right (by decide) hk

theorem two_pow_le_half {k : Nat} (hk : k < 64) : 2 ^ k ≤ 2 ^ 63 :=
  Nat.pow_le_pow_right (by decide) (by omega)

theorem wsub_one {n : Nat} (h0 : n ≠ 0) (hn : n < SIZE_MOD) : wsub n 1 = n - 1 := by
  unfold wsub
  have h : n + SIZE_MOD - 1 = (n - 1) + SIZE_MOD := by omega
  rw [h, Nat.add_mod_right, Nat.mod_eq_of_lt (by omega)]

theorem wadd_one {n : Nat} (hn : n + 1 < SIZE_MOD) : wadd n 1 = n + 1 := by
  unfold wadd
  exact Nat.mod_eq_of_lt hn

theorem mod_two_cases (a C : Nat) (ha : a < 2 * C) :
    (a < C ∧ a % C = a) ∨ (C ≤ a ∧ a % C = a - C) := by
  rcases Nat.lt_or_ge a C with h | h
  · exact Or.inl ⟨h, Nat.mod_eq_of_lt h⟩
  · refine Or.inr ⟨h, ?_⟩
    rw [Nat.mod_eq_sub_mod h, Nat.mod_eq_of_lt (by omega)]

/-- The index advance `(i + 1) & mask` of `push` and `pop`, for a power-of-two
capacity and an index below it, is the increment modulo the capacity. -/
theorem next_index {k : Nat} (hk : k < 64) {i : Nat} (hi : i < 2 ^ k) :
    wadd i 1 &&& (2 ^ k - 1) = (i + 1) % 2 ^ k := by
  have h1 := two_pow_le_half hk
  have h2 : i + 1 < SIZE_MOD := by unfold SIZE_MOD; omega
  rw [wadd_one h2, Nat.and_pow_two_sub_one_eq_mod]

/-! ## Construction -/

namespace Ringbuffer

variable {T : Type}

theorem pow2_check {k : Nat} (hk : k < 64) :
    2 ^ k ≠ 0 ∧ 2 ^ k &&& wsub (2 ^ k) 1 = 0 := by
  have hpos : 0 < 2 ^ k := Nat.pos_pow_of_pos k (by decide)
  refine ⟨by omega, ?_⟩
  rw [wsub_one (by omega) (two_pow_lt_size hk), Nat.and_pow_two_sub_one_eq_mod,
    Nat.mod_self]

theorem new_pow2 [Inhabited T] {k : Nat} (hk : k < 64) :
    (new (2 ^ k) : Option (Ringbuffer T)) =
      some { buffer := List.replicate (2 ^ k) default, cap := 2 ^ k,
             mask := 2 ^ k - 1, head := 0, tail := 0 } := by
  have hpos : 0 < 2 ^ k := Nat.pos_pow_of_pos k (by decide)
  unfold new
  rw [if_pos (pow2_check hk)]
  simp only [wsub_one (Nat.pos_iff_ne_zero.mp hpos) (two_pow_lt_size hk)]

theorem new_wf [Inhabited T] {k : Nat} (hk : k < 64) {q0 : Ringbuffer T}
    (h0 : new (2 ^ k) = some q0) : WF (2 ^ k) q0 ∧ q0.live = [] := by
  have hpos : 0 < 2 ^ k := Nat.pos_pow_of_pos k (by decide)
  rw [new_pow2 hk] at h0
  cases h0
  refine ⟨⟨rfl, rfl, by simp, hpos, hpos⟩, ?_⟩
  simp [live, count]

/-! ## One call simulates the reference queue -/

theorem count_lt {C : Nat} {q : Ringbuffer T} (hq : WF C q) : q.count < C := by
  unfold count
  rw [hq.cap_eq]
  exact Nat.mod_lt _ (by have := hq.head_lt; omega)

theorem length_live [Inhabited T] (q : Ringbuffer T) : q.live.length = q.count := by
  simp [live]

theorem push_sim [Inhabited T] {k : Nat} (hk : k < 64) {q : Ringbuffer T}
    (hq : WF (2 ^ k) q) (v : T) :
    ∃ q1, q.push v = some ((if q.live.length = 2 ^ k - 1 then .error .Full else .ok ()), q1)
      ∧ WF (2 ^ k) q1
      ∧ q1.live = (if q.live.length = 2 ^ k - 1 then q.live else q.live ++ [v]) := by
  obtain ⟨hcap, hmask, hlen, hh, ht⟩ := hq
  have hnext := next_index hk ht
  have hc1 := mod_two_cases (q.tail + 1) (2 ^ k) (by omega)
  have hc2 := mod_two_cases (q.tail + 2 ^ k - q.head) (2 ^ k) (by omega)
  have hcnt : q.count = (q.tail + 2 ^ k - q.head) % 2 ^ k := by rw [count, hcap]
  rw [length_live]
  unfold push
  simp only [hmask, hnext, hlen]
  by_cases hfull : (q.tail + 1) % 2 ^ k = q.head
  · have hc : q.count = 2 ^ k - 1 := by omega
    rw [if_pos hfull, if_pos hc, if_pos hc]
    exact ⟨q, rfl, ⟨hcap, hmask, hlen, hh, ht⟩, rfl⟩
  · have hc : q.count ≠ 2 ^ k - 1 := by omega
    rw [if_neg hfull, if_pos ht, if_neg hc, if_neg hc]
    refine ⟨_, rfl, ⟨hcap, rfl, by simp [hlen], hh, ?_⟩, ?_⟩
    · exact Nat.mod_lt _ (by omega)
    · have hc3 := mod_two_cases ((q.tail + 1) % 2 ^ k + 2 ^ k - q.head) (2 ^ k) (by omega)
      have hcnt1 : ((q.tail + 1) % 2 ^ k + 2 ^ k - q.head) % 2 ^ k = q.count + 1 := by omega
      simp only [live, count, hcap, hcnt1, List.range_succ, List.map_append, List.map_cons,
        List.map_nil]
      rw [← hcnt]
      congr 1
      · apply List.map_congr_left
        intro i hi
        have hi1 : i < q.count := List.mem_range.mp hi
        have hc4 := mod_two_cases (q.head + i) (2 ^ k) (by omega)
        have hne : q.tail ≠ (q.head + i) % 2 ^ k := by omega
        simp [List.getD_eq_getElem?_getD, List.getElem?_set, hne]
      · have hc4 := mod_two_cases (q.head + q.count) (2 ^ k) (by omega)
        have heq : (q.head + q.count) % 2 ^ k = q.tail := by omega
        simp [List.getD_eq_getElem?_getD, List.getElem?_set, heq, hlen, ht]

theorem pop_sim [Inhabited T] (moved : T → T) {k : Nat} (hk : k < 64) {q : Ringbuffer T}
    (hq : WF (2 ^ k) q) :
    (q.live = [] ∧ q.head = q.tail ∧ q.pop moved = some (.error .Empty, q)) ∨
    (∃ x xs q1, q.live = x :: xs ∧ q.head ≠ q.tail ∧ q.pop moved = some (.ok x, q1)
      ∧ WF (2 ^ k) q1 ∧ q1.live = xs) := by
  obtain ⟨hcap, hmask, hlen, hh, ht⟩ := hq
  have hnext := next_index hk hh
  have hc1 := mod_two_cases (q.head + 1) (2 ^ k) (by omega)
  have hc2 := mod_two_cases (q.tail + 2 ^ k - q.head) (2 ^ k) (by omega)
  have hcnt : q.count = (q.tail + 2 ^ k - q.head) % 2 ^ k := by rw [count, hcap]
  unfold pop
  simp only [hmask, hnext, hlen]
  by_cases hemp : q.head = q.tail
  · left
    have hc : q.count = 0 := by omega
    refine ⟨?_, hemp, by rw [if_pos hemp]⟩
    simp [live, hc]
  · right
    have hc3 := mod_two_cases (q.tail + 2 ^ k - (q.head + 1) % 2 ^ k) (2 ^ k) (by omega)
    have hc : q.count = (q.tail + 2 ^ k - (q.head + 1) % 2 ^ k) % 2 ^ k + 1 := by omega
    have hb : q.head < q.buffer.length := by omega
    have hpos : 0 < 2 ^ k := by omega
    refine ⟨q.buffer[q.head], _,
      { q with buffer := q.buffer.set q.head (moved q.buffer[q.head]),
               head := (q.head + 1) % 2 ^ k, mask := 2 ^ k - 1 },
      ?_, hemp, by rw [if_neg hemp, dif_pos hh],
      ⟨hcap, rfl, by simp [hlen], Nat.mod_lt _ hpos, ht⟩, rfl⟩
    simp only [live, count, hcap]
    rw [← hcnt, hc, List.range_succ_eq_map, List.map_cons, List.map_map]
    congr 1
    · simp [List.getD_eq_getElem?_getD, Nat.mod_eq_of_lt hh, hb]
    · apply List.map_congr_left
      intro i hi
      have hi1 := List.mem_range.mp hi
      have hc4 := mod_two_cases (q.head + (i + 1)) (2 ^ k) (by omega)
      have hc5 := mod_two_cases ((q.head + 1) % 2 ^ k + i) (2 ^ k) (by omega)
      have hne : q.head ≠ (q.head + (i + 1)) % 2 ^ k := by omega
      have heq : ((q.head + 1) % 2 ^ k + i) % 2 ^ k = (q.head + (i + 1)) % 2 ^ k := by omega
      simp [List.getD_eq_getElem?_getD, List.getElem?_set, hne, heq]

end Ringbuffer

/-! ## Runs simulate the reference queue -/

namespace Ringbuffer

variable {T : Type}

theorem step_sim [Inhabited T] (moved : T → T) {k : Nat} (hk : k < 64) {q : Ringbuffer T}
    (hq : WF (2 ^ k) q) (op : Op T) :
    ∃ q1, step moved q op = some ((refStep (2 ^ k) q.live op).1, q1)
      ∧ WF (2 ^ k) q1 ∧ q1.live = (refStep (2 ^ k) q.live op).2 := by
  cases op with
  | push v =>
    obtain ⟨q1, h1, h2, h3⟩ := push_sim hk hq v
    refine ⟨q1, ?_, h2, ?_⟩
    · simp only [step, h1, refStep]
      split <;> rfl
    · rw [h3]
      simp only [refStep]
      split <;> rfl
  | pop =>
    rcases pop_sim moved hk hq with ⟨h1, _, h3⟩ | ⟨x, xs, q1, h1, _, h3, h4, h5⟩
    · exact ⟨q, by simp only [step, h3, refStep, h1], hq, by simp only [refStep, h1]⟩
    · exact ⟨q1, by simp only [step, h3, refStep, h1], h4, by simp only [refStep, h1, h5]⟩

theorem run_sim [Inhabited T] (moved : T → T) {k : Nat} (hk : k < 64) (ops : List (Op T)) :
    ∀ {q : Ringbuffer T}, WF (2 ^ k) q →
    ∃ q1, run moved q ops = some ((refRun (2 ^ k) q.live ops).1, q1)
      ∧ WF (2 ^ k) q1 ∧ q1.live = (refRun (2 ^ k) q.live ops).2 := by
  induction ops with
  | nil => intro q hq; exact ⟨q, rfl, hq, rfl⟩
  | cons op ops ih =>
    intro q hq
    obtain ⟨q1, h1, h2, h3⟩ := step_sim moved hk hq op
    obtain ⟨q2, h4, h5, h6⟩ := ih h2
    refine ⟨q2, ?_, h5, ?_⟩
    · simp only [run, h1, h4, refRun, h3]
    · simp only [refRun, h6, h3]

/-- A run from a newly constructed buffer returns what the reference queue
returns, and ends in a well-shaped state whose live slots are the content of
the reference queue. -/
theorem run_new [Inhabited T] (moved : T → T) {k : Nat} (hk : k < 64) (ops : List (Op T)) :
    ∃ q0 q : Ringbuffer T, new (2 ^ k) = some q0 ∧ WF (2 ^ k) q0
      ∧ run moved q0 ops = some ((refRun (2 ^ k) [] ops).1, q)
      ∧ WF (2 ^ k) q ∧ q.live = (refRun (2 ^ k) [] ops).2 := by
  have h0 := new_pow2 (T := T) hk
  obtain ⟨hwf, hl⟩ := new_wf hk h0
  obtain ⟨q, h1, h2, h3⟩ := run_sim moved hk ops hwf
  rw [hl] at h1 h3
  exact ⟨_, q, h0, hwf, h1, h2, h3⟩

/-- The same, for a run that is given. -/
theorem run_new_inv [Inhabited T] (moved : T → T) {k : Nat} (hk : k < 64) {ops : List (Op T)}
    {rs : List (Ret T)} {q0 q : Ringbuffer T} (h0 : new (2 ^ k) = some q0)
    (hrun : run moved q0 ops = some (rs, q)) :
    rs = (refRun (2 ^ k) [] ops).1 ∧ WF (2 ^ k) q ∧ q.live = (refRun (2 ^ k) [] ops).2 := by
  obtain ⟨p0, p, h1, _, h3, h4, h5⟩ := run_new moved hk ops
  rw [h0] at h1
  cases h1
  rw [hrun] at h3
  cases h3
  exact ⟨rfl, h4, h5⟩

end Ringbuffer

/-! ## Facts about the reference queue -/

theorem refRun_append {T : Type} (C : Nat) (a b : List (Op T)) :
    ∀ l : List T, refRun C l (a ++ b) =
      ((refRun C l a).1 ++ (refRun C (refRun C l a).2 b).1,
       (refRun C (refRun C l a).2 b).2) := by
  induction a with
  | nil => intro l; rfl
  | cons op a ih =>
    intro l
    have h := ih (refStep C l op).2
    rw [List.cons_append]
    simp only [refRun, h, List.cons_append]

theorem refRun_pushes {T : Type} (C : Nat) (vs : List T) :
    ∀ l : List T, l.length + vs.length ≤ C - 1 →
      refRun C l (vs.map Op.push) =
        (List.replicate vs.length (Ret.push (.ok ())), l ++ vs) := by
  induction vs with
  | nil => intro l _; simp [refRun]
  | cons v vs ih =>
    intro l hl
    simp only [List.length_cons] at hl
    have hne : l.length ≠ C - 1 := by omega
    have h := ih (l ++ [v]) (by simp only [List.length_append, List.length_singleton]; omega)
    simp only [List.map_cons, refRun, refStep, if_neg hne, h, List.length_cons,
      List.replicate_succ, List.append_assoc, List.singleton_append]

theorem refRun_pops {T : Type} (C : Nat) (l : List T) :
    refRun C l (List.replicate l.length Op.pop) =
      (l.map (fun v => Ret.pop (.ok v)), []) := by
  induction l with
  | nil => rfl
  | cons x xs ih =>
    simp only [List.length_cons, List.replicate_succ, refRun, refStep, ih, List.map_cons]

/-- The reference queue never holds more than `C - 1` values, and what it
holds is what was pushed with success and not yet popped. -/
theorem refRun_count {T : Type} (C : Nat) (ops : List (Op T)) :
    ∀ l : List T, l.length ≤ C - 1 →
      (refRun C l ops).2.length ≤ C - 1 ∧
      (refRun C l ops).2.length + pops_ok (refRun C l ops).1 =
        l.length + pushes_ok (refRun C l ops).1 := by
  induction ops with
  | nil => intro l hl; exact ⟨hl, rfl⟩
  | cons op ops ih =>
    intro l hl
    cases op with
    | push v =>
      by_cases hf : l.length = C - 1
      · obtain ⟨h1, h2⟩ := ih l hl
        simp only [refRun, refStep, if_pos hf, pushes_ok, pops_ok]
        exact ⟨h1, h2⟩
      · obtain ⟨h1, h2⟩ := ih (l ++ [v])
          (by simp only [List.length_append, List.length_singleton]; omega)
        simp only [List.length_append, List.length_singleton] at h2
        simp only [refRun, refStep, if_neg hf, pushes_ok, pops_ok]
        exact ⟨h1, by omega⟩
    | pop =>
      cases l with
      | nil =>
        obtain ⟨h1, h2⟩ := ih [] hl
        simp only [refRun, refStep, pushes_ok, pops_ok]
        exact ⟨h1, h2⟩
      | cons x xs =>
        simp only [List.length_cons] at hl
        obtain ⟨h1, h2⟩ := ih xs (by omega)
        simp only [refRun, refStep, pushes_ok, pops_ok, List.length_cons]
        exact ⟨h1, by omega⟩

theorem exp_lt_of_lt_size {k : Nat} (h : 2 ^ k < SIZE_MOD) : k < 64 := by
  unfold SIZE_MOD at h
  exact (Nat.pow_lt_pow_iff_right (by decide)).mp h

/-- A non-zero word whose bitwise AND with its predecessor is zero is a power of two. -/
theorem pow2_of_check {n : Nat} (h0 : n ≠ 0) (h : n &&& (n - 1) = 0) : ∃ k, n = 2 ^ k := by
  refine ⟨n.log2, ?_⟩
  by_contra hne
  have h1 : 2 ^ n.log2 ≤ n := Nat.log2_self_le h0
  have h2 : n < 2 ^ (n.log2 + 1) := Nat.lt_log2_self
  have hb : ∀ m, 2 ^ n.log2 ≤ m → m < 2 ^ (n.log2 + 1) → m.testBit n.log2 = true := by
    intro m hm1 hm2
    obtain ⟨x, rfl⟩ := Nat.exists_eq_add_of_le hm1
    rw [Nat.pow_succ] at hm2
    rw [Nat.testBit_two_pow_add_eq, Nat.testBit_lt_two_pow (by omega)]
    rfl
  have h3 := hb n h1 h2
  have h4 := hb (n - 1) (by omega) (by omega)
  have h5 : (n &&& (n - 1)).testBit n.log2 = true := by
    rw [Nat.testBit_and, h3, h4]
    rfl
  rw [h] at h5
  simp at h5

namespace Ringbuffer

variable {T : Type}

theorem count_zero_iff {C : Nat} {q : Ringbuffer T} (hq : WF C q) :
    q.count = 0 ↔ q.head = q.tail := by
  obtain ⟨hcap, _, _, hh, ht⟩ := hq
  have hc := mod_two_cases (q.tail + C - q.head) C (by omega)
  rw [count, hcap]
  omega

theorem count_full_iff {C : Nat} {q : Ringbuffer T} (hq : WF C q) :
    q.count = C - 1 ↔ (q.tail + 1) % C = q.head := by
  obtain ⟨hcap, _, _, hh, ht⟩ := hq
  have hc := mod_two_cases (q.tail + C - q.head) C (by omega)
  have hc1 := mod_two_cases (q.tail + 1) C (by omega)
  rw [count, hcap]
  omega

/-- After a run from a newly constructed buffer the distance from `head` to
`tail` is the number of successful pushes minus the number of successful
pops, and it is at most `C - 1`. -/
theorem run_new_count [Inhabited T] (moved : T → T) {k : Nat} (hk : k < 64)
    {ops : List (Op T)} {rs : List (Ret T)} {q0 q : Ringbuffer T}
    (h0 : new (2 ^ k) = some q0) (hrun : run moved q0 ops = some (rs, q)) :
    WF (2 ^ k) q ∧ q.count ≤ 2 ^ k - 1 ∧ q.count + pops_ok rs = pushes_ok rs := by
  obtain ⟨h1, h2, h3⟩ := run_new_inv moved hk h0 hrun
  obtain ⟨h4, h5⟩ := refRun_count (2 ^ k) ops [] (Nat.zero_le _)
  rw [← h3, length_live] at h4 h5
  rw [← h1] at h5
  simp only [List.length_nil, Nat.zero_add] at h5
  exact ⟨h2, h4, h5⟩

theorem new_eq_some [Inhabited T] {C : Nat} {q0 : Ringbuffer T} (h0 : new C = some q0) :
    (C ≠ 0 ∧ C &&& wsub C 1 = 0) ∧
    q0 = { buffer := List.replicate C default, cap := C, mask := wsub C 1,
           head := 0, tail := 0 } := by
  unfold new at h0
  split at h0
  · rename_i h
    cases h0
    exact ⟨h, rfl⟩
  · cases h0

end Ringbuffer

/-! ## The claims -/

namespace Ringbuffer

variable {T : Type}

/-- C1 (FIFO order): for a power-of-two capacity `C` and any list `vs` of at
most `C - 1` values, pushing the values one after another onto a newly
constructed buffer succeeds every time, the same number of pops then return
exactly those values in the order they were pushed, and one more pop returns
`Empty`. -/
theorem fifo_order [Inhabited T] (moved : T → T) (C k : Nat) (hC : C = 2 ^ k)
    (hw : C < SIZE_MOD) (vs : List T) (hn : vs.length ≤ C - 1) :
    ∃ q0 q : Ringbuffer T, new C = some q0 ∧
      run moved q0 (vs.map Op.push ++ List.replicate vs.length Op.pop ++ [Op.pop]) =
        some (List.replicate vs.length (Ret.push (.ok ())) ++
              vs.map (fun v => Ret.pop (.ok v)) ++ [Ret.pop (.error .Empty)], q) := by
  subst hC
  have hk := exp_lt_of_lt_size hw
  obtain ⟨q0, q, h0, _, h1, _, _⟩ := run_new moved hk
    (vs.map Op.push ++ List.replicate vs.length Op.pop ++ [Op.pop])
  refine ⟨q0, q, h0, ?_⟩
  rw [h1]
  have hp := refRun_pushes (2 ^ k) vs [] (by simpa using hn)
  rw [List.nil_append] at hp
  rw [refRun_append, refRun_append, hp]
  simp only [refRun_pops, refRun, refStep]

/-- The scenario of the test `SingleThreadPushPop`: capacity 8, values 0..6. -/
theorem fifo_order_witness :
    (8 = 2 ^ 3 ∧ 8 < SIZE_MOD ∧ [0, 1, 2, 3, 4, 5, 6].length ≤ 8 - 1) ∧
    ∃ q0 q : Ringbuffer Nat, new 8 = some q0 ∧
      run id q0 [.push 0, .push 1, .push 2, .push 3, .push 4, .push 5, .push 6,
                 .pop, .pop, .pop, .pop, .pop, .pop, .pop, .pop] =
        some ([.push (.ok ()), .push (.ok ()), .push (.ok ()), .push (.ok ()),
               .push (.ok ()), .push (.ok ()), .push (.ok ()),
               .pop (.ok 0), .pop (.ok 1), .pop (.ok 2), .pop (.ok 3), .pop (.ok 4),
               .pop (.ok 5), .pop (.ok 6), .pop (.error .Empty)], q) :=
  ⟨⟨by decide, by decide, by decide⟩,
   fifo_order id 8 3 (by decide) (by decide) [0, 1, 2, 3, 4, 5, 6] (by decide)⟩

/-- C2 (wraparound correctness): for a power-of-two capacity `C`, every finite
sequence of `push` and `pop` calls applied to a newly constructed buffer runs
without fault and each call returns exactly what the reference bounded FIFO
queue (a list of at most `C - 1` values) returns; the live slots of the final
state are the content of the reference queue. -/
theorem wraparound_refines_queue [Inhabited T] (moved : T → T) (C k : Nat) (hC : C = 2 ^ k)
    (hw : C < SIZE_MOD) (ops : List (Op T)) :
    ∃ q0 q : Ringbuffer T, new C = some q0 ∧
      run moved q0 ops = some ((refRun C [] ops).1, q) ∧
      q.live = (refRun C [] ops).2 := by
  subst hC
  obtain ⟨q0, q, h0, _, h1, _, h2⟩ := run_new moved (exp_lt_of_lt_size hw) ops
  exact ⟨q0, q, h0, h1, h2⟩

/-- The scenario of the test `WrapAround`: capacity 4, push 10, 20, 30, pop
twice, push 40, 50, pop four times. -/
theorem wraparound_refines_queue_witness :
    (4 = 2 ^ 2 ∧ 4 < SIZE_MOD) ∧
    ∃ q0 q : Ringbuffer Nat, new 4 = some q0 ∧
      run id q0 [.push 10, .push 20, .push 30, .pop, .pop, .push 40, .push 50,
                 .pop, .pop, .pop, .pop] =
        some ([.push (.ok ()), .push (.ok ()), .push (.ok ()), .pop (.ok 10), .pop (.ok 20),
               .push (.ok ()), .push (.ok ()), .pop (.ok 30), .pop (.ok 40), .pop (.ok 50),
               .pop (.error .Empty)], q) ∧
      q.live = [] :=
  ⟨⟨by decide, by decide⟩,
   wraparound_refines_queue id 4 2 (by decide) (by decide)
     [.push 10, .push 20, .push 30, .pop, .pop, .push 40, .push 50, .pop, .pop, .pop, .pop]⟩

/-- C3 (full detection): for a power-of-two capacity `C`, pushing
`capacity() = C - 1` values onto a newly constructed buffer succeeds for each
of them, the next push returns `Full`, and when `C ≥ 2` a pop issued right
after the rejected push returns the first value that was pushed. -/
theorem full_detection [Inhabited T] (moved : T → T) (C k : Nat) (hC : C = 2 ^ k)
    (hw : C < SIZE_MOD) (vs : List T) (hn : vs.length = C - 1) (v : T) :
    ∃ q0 q : Ringbuffer T, new C = some q0 ∧ q0.capacity = vs.length ∧
      run moved q0 (vs.map Op.push ++ [Op.push v]) =
        some (List.replicate vs.length (Ret.push (.ok ())) ++ [Ret.push (.error .Full)], q) ∧
      (2 ≤ C → ∃ x q1, vs.head? = some x ∧ q.pop moved = some (.ok x, q1)) := by
  subst hC
  have hk := exp_lt_of_lt_size hw
  have hpos : 0 < 2 ^ k := Nat.pos_pow_of_pos k (by decide)
  obtain ⟨q0, q, h0, hwf0, h1, hwf, h2⟩ := run_new moved hk (vs.map Op.push ++ [Op.push v])
  have hp := refRun_pushes (2 ^ k) vs [] (by simp only [List.length_nil]; omega)
  rw [List.nil_append] at hp
  rw [refRun_append, hp] at h1 h2
  simp only [refRun, refStep, if_pos hn] at h1 h2
  refine ⟨q0, q, h0, ?_, h1, ?_⟩
  · rw [capacity, hwf0.cap_eq, wsub_one (by omega) hw, hn]
  · intro h2le
    rcases pop_sim moved hk hwf with ⟨h3, _, _⟩ | ⟨x, xs, q1, h3, _, h4, _, _⟩
    · rw [← h2, h3] at hn
      simp only [List.length_nil] at hn
      omega
    · rw [h2] at h3
      exact ⟨x, q1, by rw [h3]; rfl, h4⟩

/-- The scenario of the test `FullQueue`: capacity 4, values 1, 2, 3, then a
rejected push of 4. -/
theorem full_detection_witness :
    (4 = 2 ^ 2 ∧ 4 < SIZE_MOD ∧ [1, 2, 3].length = 4 - 1) ∧
    ∃ q0 q : Ringbuffer Nat, new 4 = some q0 ∧ q0.capacity = 3 ∧
      run id q0 [.push 1, .push 2, .push 3, .push 4] =
        some ([.push (.ok ()), .push (.ok ()), .push (.ok ()), .push (.error .Full)], q) ∧
      (2 ≤ 4 → ∃ x q1, [1, 2, 3].head? = some x ∧ q.pop id = some (.ok x, q1)) :=
  ⟨⟨by decide, by decide, by decide⟩,
   full_detection id 4 2 (by decide) (by decide) [1, 2, 3] (by decide) 4⟩

/-- C4 (empty detection): `pop` applied to a newly constructed buffer, or to
any state reached from it by pushes and pops in which `head == tail`, returns
`Empty`, and the state after the call is the state before it (same `head`,
same `tail`, same storage). -/
theorem empty_detection [Inhabited T] (moved : T → T) (C : Nat) (ops : List (Op T))
    (rs : List (Ret T)) (q0 q : Ringbuffer T) (h0 : new C = some q0)
    (hrun : run moved q0 ops = some (rs, q)) (heq : q.head = q.tail) :
    q0.pop moved = some (.error .Empty, q0) ∧ q.pop moved = some (.error .Empty, q) := by
  obtain ⟨_, hq0⟩ := new_eq_some h0
  constructor
  · subst hq0
    rfl
  · unfold pop
    simp only [heq, if_true]

/-- A buffer of capacity 4 drained at index 2: two pushes, two pops. -/
theorem empty_detection_witness :
    ((new 4 : Option (Ringbuffer Nat)) = some ⟨[0, 0, 0, 0], 4, 3, 0, 0⟩ ∧
     run id (⟨[0, 0, 0, 0], 4, 3, 0, 0⟩ : Ringbuffer Nat) [.push 10, .push 20, .pop, .pop] =
       some ([.push (.ok ()), .push (.ok ()), .pop (.ok 10), .pop (.ok 20)],
             ⟨[10, 20, 0, 0], 4, 3, 2, 2⟩) ∧
     (⟨[10, 20, 0, 0], 4, 3, 2, 2⟩ : Ringbuffer Nat).head =
       (⟨[10, 20, 0, 0], 4, 3, 2, 2⟩ : Ringbuffer Nat).tail) ∧
    (⟨[0, 0, 0, 0], 4, 3, 0, 0⟩ : Ringbuffer Nat).pop id =
      some (.error .Empty, ⟨[0, 0, 0, 0], 4, 3, 0, 0⟩) ∧
    (⟨[10, 20, 0, 0], 4, 3, 2, 2⟩ : Ringbuffer Nat).pop id =
      some (.error .Empty, ⟨[10, 20, 0, 0], 4, 3, 2, 2⟩) :=
  ⟨⟨by decide, by decide, by decide⟩,
   empty_detection id 4 [.push 10, .push 20, .pop, .pop]
     [.push (.ok ()), .push (.ok ()), .pop (.ok 10), .pop (.ok 20)]
     ⟨[0, 0, 0, 0], 4, 3, 0, 0⟩ ⟨[10, 20, 0, 0], 4, 3, 2, 2⟩
     (by decide) (by decide) (by decide)⟩

/-- C5 (capacity invariant): for a buffer constructed with a power-of-two `C`,
`capacity()` returns `C - 1` on the new buffer and after every finite sequence
of pushes and pops, every such sequence runs without fault, and the number of
live elements (successful pushes minus successful pops) is at most
`capacity()`. -/
theorem capacity_invariant [Inhabited T] (moved : T → T) (C k : Nat) (hC : C = 2 ^ k)
    (hw : C < SIZE_MOD) (ops : List (Op T)) :
    ∃ (q0 q : Ringbuffer T) (rs : List (Ret T)), new C = some q0 ∧ q0.capacity = C - 1 ∧
      run moved q0 ops = some (rs, q) ∧ q.capacity = C - 1 ∧
      pops_ok rs ≤ pushes_ok rs ∧ pushes_ok rs - pops_ok rs ≤ q.capacity := by
  subst hC
  have hk := exp_lt_of_lt_size hw
  have hpos : 0 < 2 ^ k := Nat.pos_pow_of_pos k (by decide)
  obtain ⟨q0, q, h0, hwf0, h1, _, _⟩ := run_new moved hk ops
  obtain ⟨hwf, h2, h3⟩ := run_new_count moved hk h0 h1
  have hc0 : q0.capacity = 2 ^ k - 1 := by
    rw [capacity, hwf0.cap_eq, wsub_one (by omega) hw]
  have hc : q.capacity = 2 ^ k - 1 := by
    rw [capacity, hwf.cap_eq, wsub_one (by omega) hw]
  refine ⟨q0, q, _, h0, hc0, h1, hc, by omega, ?_⟩
  rw [hc]
  omega

/-- Capacity 4 and six pushes in a row: three succeed, three are rejected. -/
theorem capacity_invariant_witness :
    (4 = 2 ^ 2 ∧ 4 < SIZE_MOD) ∧
    ∃ (q0 q : Ringbuffer Nat) (rs : List (Ret Nat)), new 4 = some q0 ∧ q0.capacity = 4 - 1 ∧
      run id q0 [.push 1, .push 2, .push 3, .push 4, .push 5, .push 6] = some (rs, q) ∧
      q.capacity = 4 - 1 ∧ pops_ok rs ≤ pushes_ok rs ∧
      pushes_ok rs - pops_ok rs ≤ q.capacity :=
  ⟨⟨by decide, by decide⟩,
   capacity_invariant id 4 2 (by decide) (by decide)
     [.push 1, .push 2, .push 3, .push 4, .push 5, .push 6]⟩

/-- C6 (failure conditions are exact): in every state reached from a new
buffer of power-of-two capacity `C` by pushes and pops, `push` returns either
success or `Full`, and it returns `Full` iff `(tail + 1) mod C == head`, which
holds iff the buffer holds exactly `C - 1` live elements; `pop` returns either
a value or `Empty`, and it returns `Empty` iff `head == tail`, which holds iff
the buffer holds no live element. -/
theorem failure_conditions_exact [Inhabited T] (moved : T → T) (C k : Nat) (hC : C = 2 ^ k)
    (hw : C < SIZE_MOD) (ops : List (Op T)) (rs : List (Ret T)) (q0 q : Ringbuffer T)
    (h0 : new C = some q0) (hrun : run moved q0 ops = some (rs, q)) (v : T) :
    pops_ok rs ≤ pushes_ok rs ∧
    (∃ r q1, q.push v = some (r, q1) ∧ (r = .error .Full ∨ r = .ok ()) ∧
      (r = .error .Full ↔ (q.tail + 1) % C = q.head) ∧
      ((q.tail + 1) % C = q.head ↔ pushes_ok rs - pops_ok rs = C - 1)) ∧
    (∃ r q1, q.pop moved = some (r, q1) ∧ (r = .error .Empty ∨ ∃ x, r = .ok x) ∧
      (r = .error .Empty ↔ q.head = q.tail) ∧
      (q.head = q.tail ↔ pushes_ok rs - pops_ok rs = 0)) := by
  subst hC
  have hk := exp_lt_of_lt_size hw
  obtain ⟨hwf, h2, h3⟩ := run_new_count moved hk h0 hrun
  have hz := count_zero_iff hwf
  have hf := count_full_iff hwf
  refine ⟨by omega, ?_, ?_⟩
  · obtain ⟨q1, h4, _, _⟩ := push_sim hk hwf v
    rw [length_live] at h4
    by_cases hc : q.count = 2 ^ k - 1
    · rw [if_pos hc] at h4
      exact ⟨_, q1, h4, Or.inl rfl, ⟨fun _ => hf.mp hc, fun _ => rfl⟩,
        ⟨fun _ => (by omega), fun _ => hf.mp hc⟩⟩
    · rw [if_neg hc] at h4
      refine ⟨_, q1, h4, Or.inr rfl, ⟨fun h => (by cases h), fun h => absurd (hf.mpr h) hc⟩,
        ⟨fun h => absurd (hf.mpr h) hc, fun h => absurd (by omega) hc⟩⟩
  · rcases pop_sim moved hk hwf with ⟨_, h5, h6⟩ | ⟨x, xs, q1, _, h5, h6, _, _⟩
    · exact ⟨_, q, h6, Or.inl rfl, ⟨fun _ => h5, fun _ => rfl⟩,
        ⟨fun _ => (by have := hz.mpr h5; omega), fun _ => h5⟩⟩
    · have hnz : q.count ≠ 0 := fun h => h5 (hz.mp h)
      refine ⟨_, q1, h6, Or.inr ⟨x, rfl⟩, ⟨fun h => (by cases h), fun h => absurd h h5⟩,
        ⟨fun h => absurd h h5, fun h => absurd (by omega) hnz⟩⟩

/-- A buffer of capacity 4 filled by three pushes. -/
theorem failure_conditions_exact_witness :
    (4 = 2 ^ 2 ∧ 4 < SIZE_MOD ∧
     (new 4 : Option (Ringbuffer Nat)) = some ⟨[0, 0, 0, 0], 4, 3, 0, 0⟩ ∧
     run id (⟨[0, 0, 0, 0], 4, 3, 0, 0⟩ : Ringbuffer Nat) [.push 1, .push 2, .push 3] =
       some ([.push (.ok ()), .push (.ok ()), .push (.ok ())], ⟨[1, 2, 3, 0], 4, 3, 0, 3⟩)) ∧
    (pops_ok ([.push (.ok ()), .push (.ok ()), .push (.ok ())] : List (Ret Nat)) ≤
      pushes_ok ([.push (.ok ()), .push (.ok ()), .push (.ok ())] : List (Ret Nat)) ∧
     (∃ r q1, (⟨[1, 2, 3, 0], 4, 3, 0, 3⟩ : Ringbuffer Nat).push 9 = some (r, q1) ∧
       (r = .error .Full ∨ r = .ok ()) ∧
       (r = .error .Full ↔ (3 + 1) % 4 = 0) ∧
       ((3 + 1) % 4 = 0 ↔
         pushes_ok ([.push (.ok ()), .push (.ok ()), .push (.ok ())] : List (Ret Nat)) -
           pops_ok ([.push (.ok ()), .push (.ok ()), .push (.ok ())] : List (Ret Nat)) =
             4 - 1)) ∧
     (∃ r q1, (⟨[1, 2, 3, 0], 4, 3, 0, 3⟩ : Ringbuffer Nat).pop id = some (r, q1) ∧
       (r = .error .Empty ∨ ∃ x, r = .ok x) ∧
       (r = .error .Empty ↔ 0 = 3) ∧
       (0 = 3 ↔
         pushes_ok ([.push (.ok ()), .push (.ok ()), .push (.ok ())] : List (Ret Nat)) -
           pops_ok ([.push (.ok ()), .push (.ok ()), .push (.ok ())] : List (Ret Nat)) =
             0))) :=
  ⟨⟨by decide, by decide, by decide, by decide⟩,
   failure_conditions_exact id 4 2 (by decide) (by decide) [.push 1, .push 2, .push 3]
     [.push (.ok ()), .push (.ok ()), .push (.ok ())]
     ⟨[0, 0, 0, 0], 4, 3, 0, 0⟩ ⟨[1, 2, 3, 0], 4, 3, 0, 3⟩ (by decide) (by decide) 9⟩

/-- C7 (a rejected push is atomic): for every state `q` of the buffer and every
value `v`, if `push(const T&)` returns `Full` the state after the call is `q`
itself (same `head`, `tail`, `cap`, `mask` and storage, so `v` is written
nowhere); the same holds for `push(T&&)`, which moreover leaves the object
passed by the caller as it was. -/
theorem rejected_push_atomic (moved : T → T) (q : Ringbuffer T) (v : T) :
    (∀ q1, q.push v = some (.error .Full, q1) →
      q1 = q ∧ q1.capacity = q.capacity) ∧
    (∀ q1 v1, q.push_move moved v = some (.error .Full, q1, v1) →
      q1 = q ∧ q1.capacity = q.capacity ∧ v1 = v) := by
  constructor
  · intro q1 h
    unfold push at h
    simp only at h
    split at h
    · cases h
      exact ⟨rfl, rfl⟩
    · split at h <;> cases h
  · intro q1 v1 h
    unfold push_move at h
    simp only at h
    split at h
    · cases h
      exact ⟨rfl, rfl, rfl⟩
    · split at h <;> cases h

/-- A full buffer of capacity 4: both overloads reject the value 9. -/
theorem rejected_push_atomic_witness :
    ((⟨[1, 2, 3, 0], 4, 3, 0, 3⟩ : Ringbuffer Nat).push 9 =
       some (.error .Full, ⟨[1, 2, 3, 0], 4, 3, 0, 3⟩) ∧
     (⟨[1, 2, 3, 0], 4, 3, 0, 3⟩ : Ringbuffer Nat).push_move (fun _ => 0) 9 =
       some (.error .Full, ⟨[1, 2, 3, 0], 4, 3, 0, 3⟩, 9)) ∧
    ((⟨[1, 2, 3, 0], 4, 3, 0, 3⟩ : Ringbuffer Nat) = ⟨[1, 2, 3, 0], 4, 3, 0, 3⟩ ∧
     (⟨[1, 2, 3, 0], 4, 3, 0, 3⟩ : Ringbuffer Nat).capacity =
       (⟨[1, 2, 3, 0], 4, 3, 0, 3⟩ : Ringbuffer Nat).capacity) ∧
    ((⟨[1, 2, 3, 0], 4, 3, 0, 3⟩ : Ringbuffer Nat) = ⟨[1, 2, 3, 0], 4, 3, 0, 3⟩ ∧
     (⟨[1, 2, 3, 0], 4, 3, 0, 3⟩ : Ringbuffer Nat).capacity =
       (⟨[1, 2, 3, 0], 4, 3, 0, 3⟩ : Ringbuffer Nat).capacity ∧ 9 = 9) :=
  ⟨⟨by decide, by decide⟩,
   (rejected_push_atomic (fun _ => 0) ⟨[1, 2, 3, 0], 4, 3, 0, 3⟩ 9).1 _ (by decide),
   (rejected_push_atomic (fun _ => 0) ⟨[1, 2, 3, 0], 4, 3, 0, 3⟩ 9).2 _ _ (by decide)⟩

/-- C8 (construction precondition): for a `size_t` value `C`, the check of the
constructor succeeds iff `C` is a power of two, and so does the construction;
it faults for 0 and for every value that is not a power of two; on success
`cap` is the requested value, `mask` is `cap - 1`, the storage has `cap`
slots and both indices are 0. -/
theorem construction_precondition [Inhabited T] (C : Nat) (hw : C < SIZE_MOD) :
    ((C ≠ 0 ∧ C &&& wsub C 1 = 0) ↔ ∃ k, C = 2 ^ k) ∧
    ((∃ q : Ringbuffer T, new C = some q) ↔ ∃ k, C = 2 ^ k) ∧
    ((C = 0 ∨ ¬ ∃ k, C = 2 ^ k) → (new C : Option (Ringbuffer T)) = none) ∧
    (∀ q : Ringbuffer T, new C = some q →
      q.cap = C ∧ q.mask = q.cap - 1 ∧ q.buffer.length = q.cap ∧ q.head = 0 ∧ q.tail = 0) := by
  have hcheck : (C ≠ 0 ∧ C &&& wsub C 1 = 0) ↔ ∃ k, C = 2 ^ k := by
    constructor
    · rintro ⟨h1, h2⟩
      rw [wsub_one h1 hw] at h2
      exact pow2_of_check h1 h2
    · rintro ⟨k, rfl⟩
      exact pow2_check (exp_lt_of_lt_size hw)
  have hnew : (∃ q : Ringbuffer T, new C = some q) ↔ ∃ k, C = 2 ^ k := by
    constructor
    · rintro ⟨q, hq⟩
      exact hcheck.mp (new_eq_some hq).1
    · rintro ⟨k, rfl⟩
      exact ⟨_, new_pow2 (exp_lt_of_lt_size hw)⟩
  refine ⟨hcheck, hnew, ?_, ?_⟩
  · intro h
    have hno : ¬ ∃ k, C = 2 ^ k := by
      rcases h with h | h
      · rintro ⟨k, hk⟩
        have hpos : 0 < 2 ^ k := Nat.pos_pow_of_pos k (by decide)
        omega
      · exact h
    cases hn : (new C : Option (Ringbuffer T)) with
    | none => rfl
    | some q => exact absurd (hnew.mp ⟨q, hn⟩) hno
  · intro q hq
    obtain ⟨⟨h1, _⟩, h3⟩ := new_eq_some hq
    subst h3
    exact ⟨rfl, wsub_one h1 hw, by simp, rfl, rfl⟩

/-- Capacity 4 is accepted as requested; capacities 0 and 6 fault. -/
theorem construction_precondition_witness :
    (4 < SIZE_MOD ∧ 6 < SIZE_MOD ∧ 0 < SIZE_MOD) ∧
    (∃ q : Ringbuffer Nat, new 4 = some q) ∧
    (new 6 : Option (Ringbuffer Nat)) = none ∧
    (new 0 : Option (Ringbuffer Nat)) = none :=
  ⟨⟨by decide, by decide, by decide⟩,
   (construction_precondition 4 (by decide)).2.1.mpr ⟨2, by decide⟩,
   (construction_precondition 6 (by decide)).2.2.1
     (Or.inr (fun h => absurd ((construction_precondition (T := Nat) 6 (by decide)).1.mpr h)
       (by decide))),
   (construction_precondition 0 (by decide)).2.2.1 (Or.inl rfl)⟩

/-- C9 (snapshot check): `empty()` is a read of the state (a `const` method,
so calling it again on the same state gives the same answer); it returns true
iff `head == tail`; it returns true on a newly constructed buffer, and after
a run from a new buffer it returns true iff every value pushed with success
has been popped. -/
theorem empty_snapshot [Inhabited T] (moved : T → T) (C k : Nat) (hC : C = 2 ^ k)
    (hw : C < SIZE_MOD) (ops : List (Op T)) (rs : List (Ret T)) (q0 q : Ringbuffer T)
    (h0 : new C = some q0) (hrun : run moved q0 ops = some (rs, q)) :
    (q.empty = true ↔ q.head = q.tail) ∧ q0.empty = true ∧
    (q.empty = true ↔ pushes_ok rs = pops_ok rs) := by
  subst hC
  have hk := exp_lt_of_lt_size hw
  obtain ⟨hwf, _, h3⟩ := run_new_count moved hk h0 hrun
  have hz := count_zero_iff hwf
  obtain ⟨_, hq0⟩ := new_eq_some h0
  have he : q.empty = true ↔ q.head = q.tail := by simp [empty]
  refine ⟨he, ?_, ?_⟩
  · subst hq0
    rfl
  · rw [he, ← hz]
    omega

/-- The scenario of the test `SingleThreadPushPop` at capacity 4: the buffer
is empty again after two pushes and two pops. -/
theorem empty_snapshot_witness :
    (4 = 2 ^ 2 ∧ 4 < SIZE_MOD ∧
     (new 4 : Option (Ringbuffer Nat)) = some ⟨[0, 0, 0, 0], 4, 3, 0, 0⟩ ∧
     run id (⟨[0, 0, 0, 0], 4, 3, 0, 0⟩ : Ringbuffer Nat) [.push 10, .push 20, .pop, .pop] =
       some ([.push (.ok ()), .push (.ok ()), .pop (.ok 10), .pop (.ok 20)],
             ⟨[10, 20, 0, 0], 4, 3, 2, 2⟩)) ∧
    (⟨[10, 20, 0, 0], 4, 3, 2, 2⟩ : Ringbuffer Nat).empty = true :=
  ⟨⟨by decide, by decide, by decide, by decide⟩,
   (empty_snapshot id 4 2 (by decide) (by decide) [.push 10, .push 20, .pop, .pop]
     [.push (.ok ()), .push (.ok ()), .pop (.ok 10), .pop (.ok 20)]
     ⟨[0, 0, 0, 0], 4, 3, 0, 0⟩ ⟨[10, 20, 0, 0], 4, 3, 2, 2⟩
     (by decide) (by decide)).2.2.mpr (by decide)⟩

end Ringbuffer

/-! ## Effect of a successful call -/

namespace Ringbuffer

variable {T : Type}

theorem push_ok_eq {q q1 : Ringbuffer T} {v : T} (h : q.push v = some (.ok (), q1)) :
    wadd q.tail 1 &&& q.mask ≠ q.head ∧ q.tail < q.buffer.length ∧
    q1 = { q with buffer := q.buffer.set q.tail v, tail := wadd q.tail 1 &&& q.mask } := by
  unfold push at h
  simp only at h
  split at h
  · cases h
  · rename_i hne
    split at h
    · rename_i hlt
      cases h
      exact ⟨hne, hlt, rfl⟩
    · cases h

theorem pop_ok_eq (moved : T → T) {q q1 : Ringbuffer T} {x : T}
    (h : q.pop moved = some (.ok x, q1)) :
    q.head ≠ q.tail ∧ q.buffer[q.head]? = some x ∧
    q1 = { q with buffer := q.buffer.set q.head (moved x),
                  head := wadd q.head 1 &&& q.mask } := by
  unfold pop at h
  simp only at h
  split at h
  · cases h
  · rename_i hne
    split at h
    · rename_i hlt
      cases h
      exact ⟨hne, List.getElem?_eq_getElem hlt, rfl⟩
    · cases h

/-- In a well-shaped state a successful push appends the value to the live
slots and keeps the shape. -/
theorem push_ok_inv [Inhabited T] {k : Nat} (hk : k < 64) {q q1 : Ringbuffer T}
    (hq : WF (2 ^ k) q) {v : T} (h : q.push v = some (.ok (), q1)) :
    WF (2 ^ k) q1 ∧ q1.live = q.live ++ [v] ∧ q1.count = q.count + 1 := by
  obtain ⟨p, h1, h2, h3⟩ := push_sim hk hq v
  rw [h] at h1
  by_cases hc : q.live.length = 2 ^ k - 1
  · rw [if_pos hc] at h1
    cases h1
  · rw [if_neg hc] at h1 h3
    cases h1
    refine ⟨h2, h3, ?_⟩
    have hl := congrArg List.length h3
    simpa [length_live] using hl

/-- In a well-shaped state a successful pop removes the first of the live
slots and keeps the shape. -/
theorem pop_ok_inv [Inhabited T] (moved : T → T) {k : Nat} (hk : k < 64)
    {q q1 : Ringbuffer T} (hq : WF (2 ^ k) q) {x : T} (h : q.pop moved = some (.ok x, q1)) :
    WF (2 ^ k) q1 ∧ q.live = x :: q1.live ∧ q.count = q1.count + 1 := by
  rcases pop_sim moved hk hq with ⟨_, _, h3⟩ | ⟨y, ys, p, h1, _, h3, h4, h5⟩
  · rw [h] at h3
    cases h3
  · rw [h] at h3
    cases h3
    refine ⟨h4, by rw [h1, h5], ?_⟩
    have hl := congrArg List.length h1
    rw [← h5] at hl
    simpa [length_live] using hl

/-- The distance from `head` to `tail` is `(tail - head) mod C` over the
integers. -/
theorem count_int {C : Nat} {q : Ringbuffer T} (hq : WF C q) :
    ((q.tail : Int) - (q.head : Int)) % (C : Int) = (q.count : Int) := by
  obtain ⟨hcap, _, _, hh, ht⟩ := hq
  have h1 : ((q.tail + C - q.head : Nat) : Int) = (q.tail : Int) - (q.head : Int) + (C : Int) := by
    omega
  rw [count, hcap, Int.natCast_mod, h1, Int.add_emod_self]

/-- The same distance computed on words: `tail - head` wraps modulo `2 ^ 64`,
and the capacity divides `2 ^ 64`. -/
theorem count_word {k : Nat} (hk : k < 64) {q : Ringbuffer T} (hq : WF (2 ^ k) q) :
    wsub q.tail q.head % 2 ^ k = q.count := by
  obtain ⟨hcap, _, _, hh, ht⟩ := hq
  have hle := two_pow_le_half hk
  have hd : 2 ^ k ∣ 2 ^ 64 := Nat.pow_dvd_pow 2 (by omega)
  unfold wsub SIZE_MOD
  rw [count, hcap, Nat.mod_mod_of_dvd _ hd]
  obtain ⟨m, hm⟩ := hd
  cases m with
  | zero => simp at hm
  | succ n =>
    rw [Nat.mul_succ] at hm
    have he : q.tail + 2 ^ 64 - q.head = q.tail + 2 ^ k - q.head + 2 ^ k * n := by omega
    rw [he, Nat.add_mul_mod_self_left]

end Ringbuffer

namespace Ringbuffer

variable {T : Type}

/-- C11 (index bounds invariant): in every state reached from a newly
constructed buffer of power-of-two capacity `C` by pushes and pops, `head < C`,
`tail < C` and the storage has exactly `C` slots; so `buffer[tail]` in `push`
and `buffer[head]` in `pop` are inside the storage, and no call or sequence of
calls issued from that state takes the out-of-bounds branch. -/
theorem index_bounds [Inhabited T] (moved : T → T) (C k : Nat) (hC : C = 2 ^ k)
    (hw : C < SIZE_MOD) (ops : List (Op T)) (rs : List (Ret T)) (q0 q : Ringbuffer T)
    (h0 : new C = some q0) (hrun : run moved q0 ops = some (rs, q)) :
    q.head < C ∧ q.tail < C ∧ q.buffer.length = C ∧
    q.tail < q.buffer.length ∧ q.head < q.buffer.length ∧
    (∀ v, q.push v ≠ none) ∧ q.pop moved ≠ none ∧
    (∀ more, run moved q more ≠ none) := by
  subst hC
  have hk := exp_lt_of_lt_size hw
  obtain ⟨_, hwf, _⟩ := run_new_inv moved hk h0 hrun
  have hlen := hwf.len_eq
  have hh := hwf.head_lt
  have ht := hwf.tail_lt
  refine ⟨hh, ht, hlen, by omega, by omega, ?_, ?_, ?_⟩
  · intro v hn
    obtain ⟨q1, h1, _⟩ := push_sim hk hwf v
    rw [hn] at h1
    cases h1
  · intro hn
    rcases pop_sim moved hk hwf with ⟨_, _, h3⟩ | ⟨_, _, _, _, _, h3, _⟩ <;>
    · rw [hn] at h3
      cases h3
  · intro more hn
    obtain ⟨q1, h1, _⟩ := run_sim moved hk more hwf
    rw [hn] at h1
    cases h1

/-- A buffer of capacity 4 whose tail has wrapped past the end of storage. -/
theorem index_bounds_witness :
    (4 = 2 ^ 2 ∧ 4 < SIZE_MOD ∧
     (new 4 : Option (Ringbuffer Nat)) = some ⟨[0, 0, 0, 0], 4, 3, 0, 0⟩ ∧
     run id (⟨[0, 0, 0, 0], 4, 3, 0, 0⟩ : Ringbuffer Nat)
         [.push 10, .push 20, .push 30, .pop, .pop, .push 40, .push 50] =
       some ([.push (.ok ()), .push (.ok ()), .push (.ok ()), .pop (.ok 10), .pop (.ok 20),
              .push (.ok ()), .push (.ok ())], ⟨[50, 20, 30, 40], 4, 3, 2, 1⟩)) ∧
    (⟨[50, 20, 30, 40], 4, 3, 2, 1⟩ : Ringbuffer Nat).head < 4 ∧
    (⟨[50, 20, 30, 40], 4, 3, 2, 1⟩ : Ringbuffer Nat).tail < 4 ∧
    (⟨[50, 20, 30, 40], 4, 3, 2, 1⟩ : Ringbuffer Nat).buffer.length = 4 :=
  ⟨⟨by decide, by decide, by decide, by decide⟩,
   (index_bounds id 4 2 (by decide) (by decide)
     [.push 10, .push 20, .push 30, .pop, .pop, .push 40, .push 50]
     [.push (.ok ()), .push (.ok ()), .push (.ok ()), .pop (.ok 10), .pop (.ok 20),
      .push (.ok ()), .push (.ok ())]
     ⟨[0, 0, 0, 0], 4, 3, 0, 0⟩ ⟨[50, 20, 30, 40], 4, 3, 2, 1⟩ (by decide) (by decide)).1,
   (index_bounds id 4 2 (by decide) (by decide)
     [.push 10, .push 20, .push 30, .pop, .pop, .push 40, .push 50]
     [.push (.ok ()), .push (.ok ()), .push (.ok ()), .pop (.ok 10), .pop (.ok 20),
      .push (.ok ()), .push (.ok ())]
     ⟨[0, 0, 0, 0], 4, 3, 0, 0⟩ ⟨[50, 20, 30, 40], 4, 3, 2, 1⟩ (by decide) (by decide)).2.1,
   (index_bounds id 4 2 (by decide) (by decide)
     [.push 10, .push 20, .push 30, .pop, .pop, .push 40, .push 50]
     [.push (.ok ()), .push (.ok ()), .push (.ok ()), .pop (.ok 10), .pop (.ok 20),
      .push (.ok ()), .push (.ok ())]
     ⟨[0, 0, 0, 0], 4, 3, 0, 0⟩ ⟨[50, 20, 30, 40], 4, 3, 2, 1⟩ (by decide) (by decide)).2.2.1⟩

/-- C12 (live-element count): after every finite sequence of pushes and pops
on a newly constructed buffer of power-of-two capacity `C`, `(tail - head) mod C`
(over the integers, and also with the subtraction done on words) equals the
number of successful pushes minus the number of successful pops, which lies
between 0 and `C - 1`; a successful push raises `(tail - head) mod C` by
exactly one and a successful pop lowers it by exactly one. -/
theorem live_count [Inhabited T] (moved : T → T) (C k : Nat) (hC : C = 2 ^ k)
    (hw : C < SIZE_MOD) (ops : List (Op T)) (rs : List (Ret T)) (q0 q : Ringbuffer T)
    (h0 : new C = some q0) (hrun : run moved q0 ops = some (rs, q)) :
    pops_ok rs ≤ pushes_ok rs ∧
    ((q.tail : Int) - (q.head : Int)) % (C : Int) =
      (pushes_ok rs : Int) - (pops_ok rs : Int) ∧
    wsub q.tail q.head % C = pushes_ok rs - pops_ok rs ∧
    pushes_ok rs - pops_ok rs ≤ C - 1 ∧
    (∀ v q1, q.push v = some (.ok (), q1) →
      ((q1.tail : Int) - (q1.head : Int)) % (C : Int) =
        ((q.tail : Int) - (q.head : Int)) % (C : Int) + 1) ∧
    (∀ x q1, q.pop moved = some (.ok x, q1) →
      ((q1.tail : Int) - (q1.head : Int)) % (C : Int) =
        ((q.tail : Int) - (q.head : Int)) % (C : Int) - 1) := by
  subst hC
  have hk := exp_lt_of_lt_size hw
  obtain ⟨hwf, h2, h3⟩ := run_new_count moved hk h0 hrun
  refine ⟨by omega, ?_, ?_, by omega, ?_, ?_⟩
  · rw [count_int hwf]
    omega
  · rw [count_word hk hwf]
    omega
  · intro v q1 h
    obtain ⟨hwf1, _, hc⟩ := push_ok_inv hk hwf h
    rw [count_int hwf, count_int hwf1, hc]
    omega
  · intro x q1 h
    obtain ⟨hwf1, _, hc⟩ := pop_ok_inv moved hk hwf h
    rw [count_int hwf, count_int hwf1, hc]
    omega

/-- A buffer of capacity 4 after five successful pushes and two successful
pops, with `tail = 1` behind `head = 2`: `(1 - 2) mod 4 = 3 = 5 - 2`. -/
theorem live_count_witness :
    (4 = 2 ^ 2 ∧ 4 < SIZE_MOD ∧
     (new 4 : Option (Ringbuffer Nat)) = some ⟨[0, 0, 0, 0], 4, 3, 0, 0⟩ ∧
     run id (⟨[0, 0, 0, 0], 4, 3, 0, 0⟩ : Ringbuffer Nat)
         [.push 10, .push 20, .push 30, .pop, .pop, .push 40, .push 50] =
       some ([.push (.ok ()), .push (.ok ()), .push (.ok ()), .pop (.ok 10), .pop (.ok 20),
              .push (.ok ()), .push (.ok ())], ⟨[50, 20, 30, 40], 4, 3, 2, 1⟩)) ∧
    (((1 : Nat) : Int) - ((2 : Nat) : Int)) % ((4 : Nat) : Int) =
      ((5 : Nat) : Int) - ((2 : Nat) : Int) :=
  ⟨⟨by decide, by decide, by decide, by decide⟩,
   (live_count id 4 2 (by decide) (by decide)
     [.push 10, .push 20, .push 30, .pop, .pop, .push 40, .push 50]
     [.push (.ok ()), .push (.ok ()), .push (.ok ()), .pop (.ok 10), .pop (.ok 20),
      .push (.ok ()), .push (.ok ())]
     ⟨[0, 0, 0, 0], 4, 3, 0, 0⟩ ⟨[50, 20, 30, 40], 4, 3, 2, 1⟩ (by decide) (by decide)).2.1⟩

/-- C13 (effect of a successful push): in every state reached from a new
buffer of power-of-two capacity `C` in which `push(v)` succeeds, afterwards
`storage[old tail] = v`, `tail = (old tail + 1) & mask` (which is the increment
modulo `C`), `head` and the constants are unchanged, every slot other than
the one at the old tail is unchanged, and in particular no slot of the live
range, the indices `(head + i) mod C` for `i` below the live count, is
overwritten: the live values are the old ones followed by `v`. -/
theorem push_effect [Inhabited T] (moved : T → T) (C k : Nat) (hC : C = 2 ^ k)
    (hw : C < SIZE_MOD) (ops : List (Op T)) (rs : List (Ret T)) (q0 q : Ringbuffer T)
    (h0 : new C = some q0) (hrun : run moved q0 ops = some (rs, q)) (v : T)
    (q1 : Ringbuffer T) (hpush : q.push v = some (.ok (), q1)) :
    q1.buffer[q.tail]? = some v ∧
    q1.tail = wadd q.tail 1 &&& q.mask ∧ q1.tail = (q.tail + 1) % C ∧
    q1.head = q.head ∧ q1.cap = q.cap ∧ q1.mask = q.mask ∧
    q1.buffer.length = q.buffer.length ∧
    (∀ i, i ≠ q.tail → q1.buffer[i]? = q.buffer[i]?) ∧
    (∀ i, i < q.count → (q.head + i) % C ≠ q.tail ∧
      q1.buffer[(q.head + i) % C]? = q.buffer[(q.head + i) % C]?) ∧
    q1.live = q.live ++ [v] := by
  subst hC
  have hk := exp_lt_of_lt_size hw
  obtain ⟨_, hwf, _⟩ := run_new_inv moved hk h0 hrun
  obtain ⟨_, hlive, _⟩ := push_ok_inv hk hwf hpush
  obtain ⟨_, hlt, hq1⟩ := push_ok_eq hpush
  have hnext := next_index hk hwf.tail_lt
  have hother : ∀ i, i ≠ q.tail → q1.buffer[i]? = q.buffer[i]? := by
    intro i hi
    subst hq1
    simp [List.getElem?_set, Ne.symm hi]
  refine ⟨?_, ?_, ?_, ?_, ?_, ?_, ?_, hother, ?_, hlive⟩
  · subst hq1
    simp [List.getElem?_set, hlt]
  · subst hq1
    rfl
  · subst hq1
    simp only [hwf.mask_eq, hnext]
  · subst hq1
    rfl
  · subst hq1
    rfl
  · subst hq1
    rfl
  · subst hq1
    simp
  · intro i hi
    have hh := hwf.head_lt
    have ht := hwf.tail_lt
    have hcap := hwf.cap_eq
    have hc1 := mod_two_cases (q.tail + 2 ^ k - q.head) (2 ^ k) (by omega)
    have hcnt : q.count = (q.tail + 2 ^ k - q.head) % 2 ^ k := by rw [count, hcap]
    have hc2 := mod_two_cases (q.head + i) (2 ^ k) (by omega)
    have hne : (q.head + i) % 2 ^ k ≠ q.tail := by omega
    exact ⟨hne, hother _ hne⟩

/-- A buffer of capacity 4 with `head = 2`, `tail = 0` and live values 30, 40:
the push of 50 writes slot 0 and moves `tail` to 1. -/
theorem push_effect_witness :
    (4 = 2 ^ 2 ∧ 4 < SIZE_MOD ∧
     (new 4 : Option (Ringbuffer Nat)) = some ⟨[0, 0, 0, 0], 4, 3, 0, 0⟩ ∧
     run id (⟨[0, 0, 0, 0], 4, 3, 0, 0⟩ : Ringbuffer Nat)
         [.push 10, .push 20, .push 30, .pop, .pop, .push 40] =
       some ([.push (.ok ()), .push (.ok ()), .push (.ok ()), .pop (.ok 10), .pop (.ok 20),
              .push (.ok ())], ⟨[10, 20, 30, 40], 4, 3, 2, 0⟩) ∧
     (⟨[10, 20, 30, 40], 4, 3, 2, 0⟩ : Ringbuffer Nat).push 50 =
       some (.ok (), ⟨[50, 20, 30, 40], 4, 3, 2, 1⟩)) ∧
    (⟨[50, 20, 30, 40], 4, 3, 2, 1⟩ : Ringbuffer Nat).buffer[0]? = some 50 ∧
    (⟨[50, 20, 30, 40], 4, 3, 2, 1⟩ : Ringbuffer Nat).live =
      (⟨[10, 20, 30, 40], 4, 3, 2, 0⟩ : Ringbuffer Nat).live ++ [50] :=
  ⟨⟨by decide, by decide, by decide, by decide, by decide⟩,
   (push_effect id 4 2 (by decide) (by decide)
     [.push 10, .push 20, .push 30, .pop, .pop, .push 40]
     [.push (.ok ()), .push (.ok ()), .push (.ok ()), .pop (.ok 10), .pop (.ok 20),
      .push (.ok ())]
     ⟨[0, 0, 0, 0], 4, 3, 0, 0⟩ ⟨[10, 20, 30, 40], 4, 3, 2, 0⟩ (by decide) (by decide)
     50 ⟨[50, 20, 30, 40], 4, 3, 2, 1⟩ (by decide)).1,
   (push_effect id 4 2 (by decide) (by decide)
     [.push 10, .push 20, .push 30, .pop, .pop, .push 40]
     [.push (.ok ()), .push (.ok ()), .push (.ok ()), .pop (.ok 10), .pop (.ok 20),
      .push (.ok ())]
     ⟨[0, 0, 0, 0], 4, 3, 0, 0⟩ ⟨[10, 20, 30, 40], 4, 3, 2, 0⟩ (by decide) (by decide)
     50 ⟨[50, 20, 30, 40], 4, 3, 2, 1⟩ (by decide)).2.2.2.2.2.2.2.2.2⟩

/-- C14 (effect of a successful pop): in every state reached from a new buffer
of power-of-two capacity `C` with `head != tail`, `pop` succeeds and returns
the value held in `storage[head]`; that slot is the first of the live range
and the value is the oldest one pushed and not yet popped (the front of the
reference queue); afterwards `head = (old head + 1) & mask` (which is the
increment modulo `C`) and `tail` is unchanged. -/
theorem pop_effect [Inhabited T] (moved : T → T) (C k : Nat) (hC : C = 2 ^ k)
    (hw : C < SIZE_MOD) (ops : List (Op T)) (rs : List (Ret T)) (q0 q : Ringbuffer T)
    (h0 : new C = some q0) (hrun : run moved q0 ops = some (rs, q))
    (hne : q.head ≠ q.tail) :
    ∃ x q1, q.pop moved = some (.ok x, q1) ∧ q.buffer[q.head]? = some x ∧
      0 < q.count ∧ q.live.head? = some x ∧ (refRun C [] ops).2.head? = some x ∧
      q1.head = wadd q.head 1 &&& q.mask ∧ q1.head = (q.head + 1) % C ∧
      q1.tail = q.tail := by
  subst hC
  have hk := exp_lt_of_lt_size hw
  obtain ⟨_, hwf, hlive⟩ := run_new_inv moved hk h0 hrun
  have hnext := next_index hk hwf.head_lt
  have hz := count_zero_iff hwf
  rcases pop_sim moved hk hwf with ⟨_, h2, _⟩ | ⟨x, xs, q1, h1, _, h3, _, _⟩
  · exact absurd h2 hne
  · obtain ⟨_, hx, hq1⟩ := pop_ok_eq moved h3
    refine ⟨x, q1, h3, hx, ?_, by rw [h1]; rfl, by rw [← hlive, h1]; rfl, ?_, ?_, ?_⟩
    · have : q.count ≠ 0 := fun h => hne (hz.mp h)
      omega
    · subst hq1
      rfl
    · subst hq1
      simp only [hwf.mask_eq, hnext]
    · subst hq1
      rfl

/-- A buffer of capacity 4 with `head = 3`, `tail = 1` and live values 40, 50:
the pop returns 40 and `head` wraps to 0. -/
theorem pop_effect_witness :
    (4 = 2 ^ 2 ∧ 4 < SIZE_MOD ∧
     (new 4 : Option (Ringbuffer Nat)) = some ⟨[0, 0, 0, 0], 4, 3, 0, 0⟩ ∧
     run id (⟨[0, 0, 0, 0], 4, 3, 0, 0⟩ : Ringbuffer Nat)
         [.push 10, .push 20, .push 30, .pop, .pop, .push 40, .push 50, .pop] =
       some ([.push (.ok ()), .push (.ok ()), .push (.ok ()), .pop (.ok 10), .pop (.ok 20),
              .push (.ok ()), .push (.ok ()), .pop (.ok 30)],
             ⟨[50, 20, 30, 40], 4, 3, 3, 1⟩) ∧
     (⟨[50, 20, 30, 40], 4, 3, 3, 1⟩ : Ringbuffer Nat).head ≠
       (⟨[50, 20, 30, 40], 4, 3, 3, 1⟩ : Ringbuffer Nat).tail) ∧
    ∃ x q1, (⟨[50, 20, 30, 40], 4, 3, 3, 1⟩ : Ringbuffer Nat).pop id = some (.ok x, q1) ∧
      (⟨[50, 20, 30, 40], 4, 3, 3, 1⟩ : Ringbuffer Nat).buffer[3]? = some x ∧
      0 < (⟨[50, 20, 30, 40], 4, 3, 3, 1⟩ : Ringbuffer Nat).count ∧
      (⟨[50, 20, 30, 40], 4, 3, 3, 1⟩ : Ringbuffer Nat).live.head? = some x ∧
      (refRun 4 []
        ([.push 10, .push 20, .push 30, .pop, .pop, .push 40, .push 50, .pop] :
          List (Op Nat))).2.head? = some x ∧
      q1.head = wadd 3 1 &&& 3 ∧ q1.head = (3 + 1) % 4 ∧ q1.tail = 1 :=
  ⟨⟨by decide, by decide, by decide, by decide, by decide⟩,
   pop_effect id 4 2 (by decide) (by decide)
     [.push 10, .push 20, .push 30, .pop, .pop, .push 40, .push 50, .pop]
     [.push (.ok ()), .push (.ok ()), .push (.ok ()), .pop (.ok 10), .pop (.ok 20),
      .push (.ok ()), .push (.ok ()), .pop (.ok 30)]
     ⟨[0, 0, 0, 0], 4, 3, 0, 0⟩ ⟨[50, 20, 30, 40], 4, 3, 3, 1⟩ (by decide) (by decide)
     (by decide)⟩

/-- C15 (mask wraparound arithmetic): for every power-of-two `C` that fits a
`size_t`, with `mask = C - 1` as the constructor computes it, and every index
`i < C`, `(i + 1) & mask` equals `(i + 1) mod C`, and `i + 1` does not overflow
the word.  Every state reached from a new buffer carries that mask and `C`
slots, and in every state that does: a `push` at `tail = i` returns `Full`
exactly when `(i + 1) mod C` is `head` and otherwise succeeds and stores
`(i + 1) mod C` into `tail`; a `pop` at `head = i` with `tail` different from
`i` succeeds and stores `(i + 1) mod C` into `head`.  So the index advance of
`push` and `pop` is the increment modulo `C`. -/
theorem mask_wraparound [Inhabited T] (moved : T → T) (C k i : Nat) (hC : C = 2 ^ k)
    (hw : C < SIZE_MOD) (hi : i < C) :
    wsub C 1 = C - 1 ∧ i + 1 < SIZE_MOD ∧ wadd i 1 = i + 1 ∧
    wadd i 1 &&& wsub C 1 = (i + 1) % C ∧
    (i + 1) &&& (C - 1) = (i + 1) % C ∧
    (∀ q : Ringbuffer T, new C = some q → wadd i 1 &&& q.mask = (i + 1) % C) ∧
    (∀ (ops : List (Op T)) (rs : List (Ret T)) (q0 q : Ringbuffer T),
      new C = some q0 → run moved q0 ops = some (rs, q) →
      q.mask = wsub C 1 ∧ q.buffer.length = C ∧ q.head < C ∧ q.tail < C) ∧
    (∀ (q : Ringbuffer T) (v : T), q.mask = wsub C 1 → q.buffer.length = C → q.tail = i →
      (i + 1) % C ≠ q.head →
      ∃ q1, q.push v = some (.ok (), q1) ∧ q1.tail = (i + 1) % C ∧ q1.head = q.head) ∧
    (∀ (q : Ringbuffer T) (v : T), q.mask = wsub C 1 → q.tail = i →
      (i + 1) % C = q.head → q.push v = some (.error .Full, q)) ∧
    (∀ q : Ringbuffer T, q.mask = wsub C 1 → q.buffer.length = C → q.head = i →
      q.tail ≠ i →
      ∃ x q1, q.pop moved = some (.ok x, q1) ∧ q1.head = (i + 1) % C ∧ q1.tail = q.tail) := by
  subst hC
  have hk := exp_lt_of_lt_size hw
  have hpos : 0 < 2 ^ k := Nat.pos_pow_of_pos k (by decide)
  have hs := wsub_one (Nat.pos_iff_ne_zero.mp hpos) hw
  have hlt : i + 1 < SIZE_MOD := by omega
  have hn := next_index hk hi
  refine ⟨hs, hlt, wadd_one hlt, by rw [hs, hn], ?_, ?_, ?_, ?_, ?_, ?_⟩
  · exact Nat.and_pow_two_sub_one_eq_mod _ _
  · intro q hq
    obtain ⟨hwf, _⟩ := new_wf hk hq
    rw [hwf.mask_eq, hn]
  · intro ops rs q0 q h0 hrun
    obtain ⟨_, hwf, _⟩ := run_new_inv moved hk h0 hrun
    exact ⟨by rw [hwf.mask_eq, hs], hwf.len_eq, hwf.head_lt, hwf.tail_lt⟩
  · intro q v hm hl ht hne
    have hnext : wadd q.tail 1 &&& q.mask = (i + 1) % 2 ^ k := by rw [hm, ht, hs, hn]
    refine ⟨{ q with buffer := q.buffer.set q.tail v, tail := wadd q.tail 1 &&& q.mask },
      ?_, hnext, rfl⟩
    have hne1 : ¬ wadd q.tail 1 &&& q.mask = q.head := by
      rw [hnext]
      exact hne
    have hlt1 : q.tail < q.buffer.length := by omega
    simp only [push, if_neg hne1, if_pos hlt1]
  · intro q v hm ht heq
    have hnext : wadd q.tail 1 &&& q.mask = q.head := by rw [hm, ht, hs, hn, heq]
    simp only [push, if_pos hnext]
  · intro q hm hl hh hne
    have hnext : wadd q.head 1 &&& q.mask = (i + 1) % 2 ^ k := by rw [hm, hh, hs, hn]
    have hne1 : ¬ q.head = q.tail := by
      rw [hh]
      exact fun h => hne h.symm
    have hlt1 : q.head < q.buffer.length := by omega
    refine ⟨q.buffer[q.head],
      { q with buffer := q.buffer.set q.head (moved q.buffer[q.head]),
               head := wadd q.head 1 &&& q.mask }, ?_, hnext, rfl⟩
    simp only [pop, if_neg hne1, dif_pos hlt1]

/-- Capacity 4, mask 3, last index 3: its successor wraps to 0, in the
arithmetic, in a push at `tail = 3` and in a pop at `head = 3`. -/
theorem mask_wraparound_witness :
    (4 = 2 ^ 2 ∧ 4 < SIZE_MOD ∧ 3 < 4) ∧
    (wadd 3 1 &&& wsub 4 1 = (3 + 1) % 4) ∧
    ((⟨[10, 20, 30, 0], 4, 3, 2, 3⟩ : Ringbuffer Nat).mask = wsub 4 1 ∧
     (⟨[10, 20, 30, 0], 4, 3, 2, 3⟩ : Ringbuffer Nat).buffer.length = 4 ∧
     (⟨[10, 20, 30, 0], 4, 3, 2, 3⟩ : Ringbuffer Nat).tail = 3 ∧
     (3 + 1) % 4 ≠ (⟨[10, 20, 30, 0], 4, 3, 2, 3⟩ : Ringbuffer Nat).head) ∧
    (∃ q1, (⟨[10, 20, 30, 0], 4, 3, 2, 3⟩ : Ringbuffer Nat).push 40 = some (.ok (), q1) ∧
      q1.tail = 0 ∧ q1.head = 2) ∧
    ((⟨[50, 20, 30, 40], 4, 3, 3, 1⟩ : Ringbuffer Nat).mask = wsub 4 1 ∧
     (⟨[50, 20, 30, 40], 4, 3, 3, 1⟩ : Ringbuffer Nat).buffer.length = 4 ∧
     (⟨[50, 20, 30, 40], 4, 3, 3, 1⟩ : Ringbuffer Nat).head = 3 ∧
     (⟨[50, 20, 30, 40], 4, 3, 3, 1⟩ : Ringbuffer Nat).tail ≠ 3) ∧
    (∃ x q1, (⟨[50, 20, 30, 40], 4, 3, 3, 1⟩ : Ringbuffer Nat).pop id = some (.ok x, q1) ∧
      q1.head = 0 ∧ q1.tail = 1) :=
  ⟨⟨by decide, by decide, by decide⟩,
   (mask_wraparound (T := Nat) id 4 2 3 (by decide) (by decide) (by decide)).2.2.2.1,
   ⟨by decide, by decide, by decide, by decide⟩,
   (mask_wraparound id 4 2 3 (by decide) (by decide) (by decide)).2.2.2.2.2.2.2.1
     ⟨[10, 20, 30, 0], 4, 3, 2, 3⟩ 40 (by decide) (by decide) (by decide) (by decide),
   ⟨by decide, by decide, by decide, by decide⟩,
   (mask_wraparound id 4 2 3 (by decide) (by decide) (by decide)).2.2.2.2.2.2.2.2.2
     ⟨[50, 20, 30, 40], 4, 3, 3, 1⟩ (by decide) (by decide) (by decide) (by decide)⟩

/-- C16 (progress after success): in every state reached from a new buffer of
power-of-two capacity, if a pop succeeds then a push issued right after it
succeeds, and if a push succeeds then a pop issued right after it succeeds. -/
theorem progress_after_success [Inhabited T] (moved : T → T) (C k : Nat) (hC : C = 2 ^ k)
    (hw : C < SIZE_MOD) (ops : List (Op T)) (rs : List (Ret T)) (q0 q : Ringbuffer T)
    (h0 : new C = some q0) (hrun : run moved q0 ops = some (rs, q)) :
    (∀ x q1, q.pop moved = some (.ok x, q1) → ∀ v, ∃ q2, q1.push v = some (.ok (), q2)) ∧
    (∀ v q1, q.push v = some (.ok (), q1) → ∃ x q2, q1.pop moved = some (.ok x, q2)) := by
  subst hC
  have hk := exp_lt_of_lt_size hw
  obtain ⟨_, hwf, _⟩ := run_new_inv moved hk h0 hrun
  constructor
  · intro x q1 hpop v
    obtain ⟨hwf1, _, hc⟩ := pop_ok_inv moved hk hwf hpop
    have hlt := count_lt hwf
    obtain ⟨q2, h1, _⟩ := push_sim hk hwf1 v
    rw [length_live, if_neg (by omega)] at h1
    exact ⟨q2, h1⟩
  · intro v q1 hpush
    obtain ⟨hwf1, _, hc⟩ := push_ok_inv hk hwf hpush
    rcases pop_sim moved hk hwf1 with ⟨_, h2, _⟩ | ⟨x, _, q2, _, _, h3, _⟩
    · have := (count_zero_iff hwf1).mpr h2
      omega
    · exact ⟨x, q2, h3⟩

/-- A full buffer of capacity 4: after its pop a push succeeds; and a buffer
holding two values: after a further push a pop succeeds. -/
theorem progress_after_success_witness :
    (4 = 2 ^ 2 ∧ 4 < SIZE_MOD ∧
     (new 4 : Option (Ringbuffer Nat)) = some ⟨[0, 0, 0, 0], 4, 3, 0, 0⟩ ∧
     run id (⟨[0, 0, 0, 0], 4, 3, 0, 0⟩ : Ringbuffer Nat) [.push 1, .push 2, .push 3] =
       some ([.push (.ok ()), .push (.ok ()), .push (.ok ())], ⟨[1, 2, 3, 0], 4, 3, 0, 3⟩) ∧
     (⟨[1, 2, 3, 0], 4, 3, 0, 3⟩ : Ringbuffer Nat).pop id =
       some (.ok 1, ⟨[1, 2, 3, 0], 4, 3, 1, 3⟩) ∧
     run id (⟨[0, 0, 0, 0], 4, 3, 0, 0⟩ : Ringbuffer Nat) [.push 1, .push 2] =
       some ([.push (.ok ()), .push (.ok ())], ⟨[1, 2, 0, 0], 4, 3, 0, 2⟩) ∧
     (⟨[1, 2, 0, 0], 4, 3, 0, 2⟩ : Ringbuffer Nat).push 3 =
       some (.ok (), ⟨[1, 2, 3, 0], 4, 3, 0, 3⟩)) ∧
    (∃ q2, (⟨[1, 2, 3, 0], 4, 3, 1, 3⟩ : Ringbuffer Nat).push 9 = some (.ok (), q2)) ∧
    (∃ x q2, (⟨[1, 2, 3, 0], 4, 3, 0, 3⟩ : Ringbuffer Nat).pop id = some (.ok x, q2)) :=
  ⟨⟨by decide, by decide, by decide, by decide, by decide, by decide, by decide⟩,
   (progress_after_success id 4 2 (by decide) (by decide) [.push 1, .push 2, .push 3]
     [.push (.ok ()), .push (.ok ()), .push (.ok ())]
     ⟨[0, 0, 0, 0], 4, 3, 0, 0⟩ ⟨[1, 2, 3, 0], 4, 3, 0, 3⟩ (by decide) (by decide)).1
     1 ⟨[1, 2, 3, 0], 4, 3, 1, 3⟩ (by decide) 9,
   (progress_after_success id 4 2 (by decide) (by decide) [.push 1, .push 2]
     [.push (.ok ()), .push (.ok ())]
     ⟨[0, 0, 0, 0], 4, 3, 0, 0⟩ ⟨[1, 2, 0, 0], 4, 3, 0, 2⟩ (by decide) (by decide)).2
     3 ⟨[1, 2, 3, 0], 4, 3, 0, 3⟩ (by decide)⟩

/-- With `mask = 0` and `head = 0` every push is rejected. -/
theorem push_mask_zero (q : Ringbuffer T) (hh : q.head = 0) (hm : q.mask = 0) (v : T) :
    q.push v = some (.error .Full, q) := by
  simp [push, hh, hm]

/-- With `mask = 0` and `head = tail = 0` every sequence of calls is rejected
call by call and leaves the state as it is. -/
theorem run_mask_zero (moved : T → T) (q : Ringbuffer T) (hh : q.head = 0) (ht : q.tail = 0)
    (hm : q.mask = 0) (ops : List (Op T)) :
    ∃ rs, run moved q ops = some (rs, q) ∧
      (∀ r ∈ rs, r = Ret.push (.error .Full) ∨ r = Ret.pop (.error .Empty)) := by
  have hpop : q.pop moved = some (.error .Empty, q) := by
    simp [pop, hh, ht]
  induction ops with
  | nil => exact ⟨[], rfl, by simp⟩
  | cons op ops ih =>
    obtain ⟨rs, h1, h2⟩ := ih
    cases op with
    | push v =>
      refine ⟨Ret.push (.error .Full) :: rs,
        by simp only [run, step, push_mask_zero q hh hm v, h1], ?_⟩
      intro r hr
      rcases List.mem_cons.mp hr with h | h
      · exact Or.inl h
      · exact h2 r h
    | pop =>
      refine ⟨Ret.pop (.error .Empty) :: rs, by simp only [run, step, hpop, h1], ?_⟩
      intro r hr
      rcases List.mem_cons.mp hr with h | h
      · exact Or.inr h
      · exact h2 r h

/-- C17 (degenerate capacity): construction with capacity 1 is accepted and the
buffer has `capacity() = 0`, `head = tail = 0`; on it `empty()` is true, every
push returns `Full` and `pop` returns `Empty`, both leaving the state as it
is; hence every sequence of calls runs without fault, returns only `Full` and
`Empty`, and ends in the initial state, which is the only state reached. -/
theorem degenerate_capacity [Inhabited T] (moved : T → T) (ops : List (Op T)) :
    ∃ (q0 : Ringbuffer T) (rs : List (Ret T)), new 1 = some q0 ∧ q0.capacity = 0 ∧
      q0.head = 0 ∧ q0.tail = 0 ∧ q0.empty = true ∧
      (∀ v, q0.push v = some (.error .Full, q0)) ∧
      q0.pop moved = some (.error .Empty, q0) ∧
      run moved q0 ops = some (rs, q0) ∧
      (∀ r ∈ rs, r = Ret.push (.error .Full) ∨ r = Ret.pop (.error .Empty)) := by
  have hnew : (new 1 : Option (Ringbuffer T)) = some ⟨[default], 1, 0, 0, 0⟩ :=
    new_pow2 (k := 0) (by decide)
  obtain ⟨rs, h1, h2⟩ := run_mask_zero moved (⟨[default], 1, 0, 0, 0⟩ : Ringbuffer T)
    rfl rfl rfl ops
  have hcap : (⟨[default], 1, 0, 0, 0⟩ : Ringbuffer T).capacity = 0 := by
    show wsub 1 1 = 0
    rw [wsub_one (by decide) (by decide)]
  exact ⟨_, rs, hnew, hcap, rfl, rfl, rfl, fun v => push_mask_zero _ rfl rfl v, rfl, h1, h2⟩

/-- C18 (overload agreement): for every state and every value, `push(T&&)`
returns the same result as `push(const T&)` (success, `Full`, or the same
fault) and leaves the same state, so the same `head`, `tail` and storage. -/
theorem push_overloads_agree (moved : T → T) (q : Ringbuffer T) (v : T) :
    (q.push_move moved v).map (fun p => (p.1, p.2.1)) = q.push v := by
  unfold push_move push
  simp only
  split
  · rfl
  · split <;> rfl

end Ringbuffer
